import Mathlib

/-!
Verification of the core of a multi-user FTP server written in C
(directory `Socket Programming/server`).  Each C function that a claim
depends on is shallowly embedded as an executable Lean definition over
`List Char` (strings) and `Nat` (machine integers, with explicit `% 2^w`
where a C cast can overflow); fallible C functions (returning `-1`)
become `Option`-valued functions.  The theorems at the end of the file
settle the specification claims against these embeddings.
-/

namespace FTP

/-! ## Character helpers (`utils.c`)

`isspace` in the C locale accepts space, `\t`, `\n`, `\v`, `\f`, `\r`.
`toupper` maps `'a'..'z'` to `'A'..'Z'` and leaves everything else alone.
-/

def isSpaceChar (c : Char) : Bool :=
  c = ' ' || c = '\t' || c = '\n' || c = '\x0b' || c = '\x0c' || c = '\r'

def toUpperChar (c : Char) : Char :=
  if 'a' ≤ c && c ≤ 'z' then Char.ofNat (c.toNat - 32) else c

/-- Embedding of `trim_whitespace` (utils.c:18): drop leading whitespace,
then drop trailing whitespace. -/
def trim_whitespace (s : List Char) : List Char :=
  ((s.dropWhile isSpaceChar).reverse.dropWhile isSpaceChar).reverse

/-- Embedding of `to_uppercase` (utils.c:39). -/
def to_uppercase (s : List Char) : List Char :=
  s.map toUpperChar

/-! ## Line-ending conversion (`utils.c`, claim C8)

`crlf_to_lf` and `lf_to_crlf` first reject a non-positive buffer size
(`output_size <= 0` returns `-1` before the loop; the null-pointer and
`input_len < 0` guards of the same line have no counterpart over
`List Char`/`Nat`), then walk the input byte by byte, writing into the
output buffer and failing with `-1` when the next write would overflow
it.  The loop is embedded by the `_loop` functions, which carry the
remaining capacity; the entry guard sits in the wrapper, so the
embedding returns `none` exactly where the C returns `-1`. -/

def lf_to_crlf_loop (input : List Char) (cap : Nat) : Option (List Char) :=
  match input with
  | [] => some []
  | c :: rest =>
    if c = '\n' then
      if 2 ≤ cap then (lf_to_crlf_loop rest (cap - 2)).map (fun r => '\r' :: '\n' :: r)
      else none
    else
      if 1 ≤ cap then (lf_to_crlf_loop rest (cap - 1)).map (fun r => c :: r)
      else none

def lf_to_crlf (input : List Char) (output_size : Nat) : Option (List Char) :=
  if output_size = 0 then none
  else lf_to_crlf_loop input output_size

def crlf_to_lf_loop (input : List Char) (cap : Nat) : Option (List Char) :=
  match input with
  | [] => some []
  | c :: rest =>
    if c = '\r' then
      match rest with
      | d :: rest2 =>
        if d = '\n' then
          -- CRLF pair collapses to a single LF
          if 1 ≤ cap then (crlf_to_lf_loop rest2 (cap - 1)).map (fun r => '\n' :: r)
          else none
        else
          -- lone CR is copied through
          if 1 ≤ cap then (crlf_to_lf_loop (d :: rest2) (cap - 1)).map (fun r => '\r' :: r)
          else none
      | [] =>
        if 1 ≤ cap then (crlf_to_lf_loop [] (cap - 1)).map (fun r => '\r' :: r)
        else none
    else
      if 1 ≤ cap then (crlf_to_lf_loop rest (cap - 1)).map (fun r => c :: r)
      else none

def crlf_to_lf (input : List Char) (output_size : Nat) : Option (List Char) :=
  if output_size = 0 then none
  else crlf_to_lf_loop input output_size

/-- Capacity-free companion of `lf_to_crlf`, used only inside proofs. -/
def lfToCrlfFn : List Char → List Char
  | [] => []
  | c :: rest =>
    if c = '\n' then '\r' :: '\n' :: lfToCrlfFn rest
    else c :: lfToCrlfFn rest

/-- Capacity-free companion of `crlf_to_lf`, used only inside proofs. -/
def crlfToLfFn : List Char → List Char
  | [] => []
  | c :: rest =>
    if c = '\r' then
      match rest with
      | d :: rest2 =>
        if d = '\n' then '\n' :: crlfToLfFn rest2
        else '\r' :: crlfToLfFn (d :: rest2)
      | [] => ['\r']
    else c :: crlfToLfFn rest

theorem lf_to_crlf_loop_eq_of_cap (x : List Char) :
    ∀ cap, 2 * x.length ≤ cap → lf_to_crlf_loop x cap = some (lfToCrlfFn x) := by
  induction x with
  | nil => intro cap _; rfl
  | cons c rest ih =>
    intro cap hcap
    simp only [List.length_cons] at hcap
    by_cases hc : c = '\n'
    · have h2 : 2 ≤ cap := by omega
      have : 2 * rest.length ≤ cap - 2 := by omega
      simp [lf_to_crlf_loop, lfToCrlfFn, hc, h2, ih _ this]
    · have h1 : 1 ≤ cap := by omega
      have : 2 * rest.length ≤ cap - 1 := by omega
      simp [lf_to_crlf_loop, lfToCrlfFn, hc, h1, ih _ this]

theorem crlf_to_lf_loop_eq_of_cap (x : List Char) :
    ∀ cap, x.length ≤ cap → crlf_to_lf_loop x cap = some (crlfToLfFn x) := by
  induction x using crlfToLfFn.induct with
  | case1 => intro cap _; rfl
  | case2 rest2 ih =>
    intro cap hcap
    simp only [List.length_cons] at hcap
    have h1 : 1 ≤ cap := by omega
    have : rest2.length ≤ cap - 1 := by omega
    simp [crlf_to_lf_loop, crlfToLfFn, h1, ih _ this]
  | case3 d rest2 hne ih =>
    intro cap hcap
    simp only [List.length_cons] at hcap
    have h1 : 1 ≤ cap := by omega
    have : (d :: rest2).length ≤ cap - 1 := by simp only [List.length_cons]; omega
    simp [crlf_to_lf_loop, crlfToLfFn, hne, h1, ih _ this]
  | case4 =>
    intro cap hcap
    simp only [List.length_cons] at hcap
    have h1 : 1 ≤ cap := by omega
    simp [crlf_to_lf_loop, crlfToLfFn, h1]
  | case5 c rest hne ih =>
    intro cap hcap
    simp only [List.length_cons] at hcap
    have h1 : 1 ≤ cap := by omega
    have hrest : rest.length ≤ cap - 1 := by omega
    cases rest with
    | nil => simp [crlf_to_lf_loop, crlfToLfFn, hne, h1]
    | cons d rest2 => simp [crlf_to_lf_loop, crlfToLfFn, hne, h1, ih _ hrest]

theorem lf_to_crlf_eq_of_cap (x : List Char) (cap : Nat) (hpos : 0 < cap)
    (hcap : 2 * x.length ≤ cap) : lf_to_crlf x cap = some (lfToCrlfFn x) := by
  rw [lf_to_crlf, if_neg (by omega)]
  exact lf_to_crlf_loop_eq_of_cap x cap hcap

theorem crlf_to_lf_eq_of_cap (x : List Char) (cap : Nat) (hpos : 0 < cap)
    (hcap : x.length ≤ cap) : crlf_to_lf x cap = some (crlfToLfFn x) := by
  rw [crlf_to_lf, if_neg (by omega)]
  exact crlf_to_lf_loop_eq_of_cap x cap hcap

theorem crlfToLfFn_cons_ne (c : Char) (l : List Char) (h : c ≠ '\r') :
    crlfToLfFn (c :: l) = c :: crlfToLfFn l := by
  cases l with
  | nil => simp [crlfToLfFn, h]
  | cons d rest => simp [crlfToLfFn, h]

theorem lfToCrlfFn_head_ne_lf (x : List Char) : (lfToCrlfFn x).head? ≠ some '\n' := by
  cases x with
  | nil => simp [lfToCrlfFn]
  | cons c rest =>
    by_cases hc : c = '\n' <;> simp [lfToCrlfFn, hc]

theorem crlfToLfFn_cr_cons (l : List Char) (h : l.head? ≠ some '\n') :
    crlfToLfFn ('\r' :: l) = '\r' :: crlfToLfFn l := by
  cases l with
  | nil => rfl
  | cons d rest =>
    have hd : d ≠ '\n' := by
      intro h'; subst h'; simp at h
    simp [crlfToLfFn, hd]

theorem crlfToLf_lfToCrlf (x : List Char) : crlfToLfFn (lfToCrlfFn x) = x := by
  induction x with
  | nil => rfl
  | cons c rest ih =>
    by_cases hc : c = '\n'
    · subst hc
      simp [lfToCrlfFn, crlfToLfFn, ih]
    · by_cases hcr : c = '\r'
      · subst hcr
        rw [show lfToCrlfFn ('\r' :: rest) = '\r' :: lfToCrlfFn rest by simp [lfToCrlfFn]]
        rw [crlfToLfFn_cr_cons _ (lfToCrlfFn_head_ne_lf rest), ih]
      · rw [show lfToCrlfFn (c :: rest) = c :: lfToCrlfFn rest by simp [lfToCrlfFn, hc]]
        rw [crlfToLfFn_cons_ne c _ hcr, ih]

theorem crlfToLfFn_length_le (y : List Char) : (crlfToLfFn y).length ≤ y.length := by
  induction y using crlfToLfFn.induct with
  | case1 => simp [crlfToLfFn]
  | case2 rest2 ih => simp [crlfToLfFn]; omega
  | case3 d rest2 hne ih =>
    rw [show crlfToLfFn ('\r' :: d :: rest2) = '\r' :: crlfToLfFn (d :: rest2) by
      simp [crlfToLfFn, hne]]
    simp only [List.length_cons] at ih ⊢
    omega
  | case4 => simp [crlfToLfFn]
  | case5 c rest hne ih =>
    rw [crlfToLfFn_cons_ne c _ hne]
    simp only [List.length_cons]
    omega

/-! ## Path normalisation (`protocol.c`, claim C9)

`proto_normalize_path` rewrites the path buffer in place: backslashes
become slashes, runs of slashes collapse to one (tracked by the
`last_was_slash` flag of the C loop), and a trailing slash is dropped
unless the whole path is `"/"`.  It fails when the string does not fit
the buffer (`len >= max_length`). -/

def replaceBackslash (c : Char) : Char :=
  if c = '\\' then '/' else c

def collapseSlashes (l : List Char) (lastWasSlash : Bool) : List Char :=
  match l with
  | [] => []
  | c :: rest =>
    if c = '/' then
      if lastWasSlash then collapseSlashes rest true
      else '/' :: collapseSlashes rest true
    else c :: collapseSlashes rest false

def dropTrailingSlash (l : List Char) : List Char :=
  if 1 < l.length ∧ l.getLast? = some '/' then l.dropLast else l

def proto_normalize_path (path : List Char) (max_length : Nat) : Option (List Char) :=
  if max_length = 0 then none
  else if max_length ≤ path.length then none
  else some (dropTrailingSlash (collapseSlashes (path.map replaceBackslash) false))

/-- Adjacent duplicate slashes are absent (the shape `collapseSlashes`
establishes and preserves). -/
def noDupSlash : List Char → Bool
  | c :: d :: rest => !(c = '/' && d = '/') && noDupSlash (d :: rest)
  | _ => true

theorem collapseSlashes_shape (l : List Char) :
    noDupSlash (collapseSlashes l false) = true ∧
    noDupSlash (collapseSlashes l true) = true ∧
    (collapseSlashes l true).head? ≠ some '/' := by
  induction l with
  | nil => exact ⟨rfl, rfl, by simp [collapseSlashes]⟩
  | cons c rest ih =>
    obtain ⟨ihF, ihT, ihH⟩ := ih
    by_cases hc : c = '/'
    · subst hc
      refine ⟨?_, ?_, ?_⟩
      · rw [show collapseSlashes ('/' :: rest) false = '/' :: collapseSlashes rest true by
          simp [collapseSlashes]]
        cases hcol : collapseSlashes rest true with
        | nil => rfl
        | cons d t =>
          have hd : d ≠ '/' := by
            intro h; rw [hcol, h] at ihH; simp at ihH
          rw [hcol] at ihT
          simp [noDupSlash, hd, ihT]
      · simpa [collapseSlashes] using ihT
      · simpa [collapseSlashes] using ihH
    · refine ⟨?_, ?_, ?_⟩
      · rw [show collapseSlashes (c :: rest) false = c :: collapseSlashes rest false by
          simp [collapseSlashes, hc]]
        cases hcol : collapseSlashes rest false with
        | nil => rfl
        | cons d t =>
          rw [hcol] at ihF
          simp [noDupSlash, hc, ihF]
      · rw [show collapseSlashes (c :: rest) true = c :: collapseSlashes rest false by
          simp [collapseSlashes, hc]]
        cases hcol : collapseSlashes rest false with
        | nil => rfl
        | cons d t =>
          rw [hcol] at ihF
          simp [noDupSlash, hc, ihF]
      · simp [collapseSlashes, hc]

theorem collapseSlashes_of_noDupSlash (l : List Char) (h : noDupSlash l = true) :
    collapseSlashes l false = l ∧
    (l.head? ≠ some '/' → collapseSlashes l true = l) := by
  induction l with
  | nil => exact ⟨rfl, fun _ => rfl⟩
  | cons c rest ih =>
    have hrest : noDupSlash rest = true := by
      cases rest with
      | nil => rfl
      | cons d t => simp [noDupSlash] at h; exact h.2
    obtain ⟨ihF, ihT⟩ := ih hrest
    by_cases hc : c = '/'
    · subst hc
      have htail : collapseSlashes rest true = rest := by
        cases rest with
        | nil => rfl
        | cons d t =>
          have hd : ¬ d = '/' := by
            simp [noDupSlash] at h
            intro h'; exact absurd h'.symm (by simpa using fun h'' => h.1 h''.symm)
          exact ihT (by simp [hd])
      constructor
      · simp [collapseSlashes, htail]
      · intro hhead; simp at hhead
    · constructor
      · simp [collapseSlashes, hc, ihF]
      · intro _; simp [collapseSlashes, hc, ihF]

theorem noDupSlash_dropLast (l : List Char) (h : noDupSlash l = true) :
    noDupSlash l.dropLast = true := by
  induction l with
  | nil => rfl
  | cons c rest ih =>
    cases rest with
    | nil => rfl
    | cons d t =>
      simp only [noDupSlash, Bool.and_eq_true, Bool.not_eq_eq_eq_not, Bool.not_true] at h
      have ih2 := ih h.2
      cases t with
      | nil => rfl
      | cons e u =>
        rw [List.dropLast_cons₂, List.dropLast_cons₂]
        rw [List.dropLast_cons₂] at ih2
        simp only [noDupSlash, Bool.and_eq_true, Bool.not_eq_eq_eq_not, Bool.not_true]
        exact ⟨h.1, ih2⟩

theorem noDupSlash_no_double_tail (u : List Char) :
    noDupSlash (u ++ ['/', '/']) = false := by
  induction u with
  | nil => rfl
  | cons c u' ih =>
    cases u' with
    | nil => simp [noDupSlash]
    | cons e t =>
      simp only [List.cons_append] at ih ⊢
      simp only [noDupSlash, ih, Bool.and_false]

theorem dropTrailingSlash_stable (l : List Char) (h : noDupSlash l = true) :
    dropTrailingSlash (dropTrailingSlash l) = dropTrailingSlash l := by
  have key : ¬ (1 < (dropTrailingSlash l).length ∧
      (dropTrailingSlash l).getLast? = some '/') := by
    rw [dropTrailingSlash]
    by_cases hc : 1 < l.length ∧ l.getLast? = some '/'
    · rw [if_pos hc]
      rintro ⟨hlen, hlast⟩
      have hne : l ≠ [] := by
        intro h'; subst h'; simp at hc
      have hdne : l.dropLast ≠ [] := by
        intro h'; rw [h'] at hlen; simp at hlen
      have h1 : l.dropLast.dropLast ++ [l.dropLast.getLast hdne] = l.dropLast :=
        List.dropLast_append_getLast hdne
      have h2 : l.dropLast ++ [l.getLast hne] = l := List.dropLast_append_getLast hne
      have hg1 : l.dropLast.getLast hdne = '/' := by
        have hq := List.getLast?_eq_getLast l.dropLast hdne
        rw [hq] at hlast
        exact Option.some.inj hlast
      have hg2 : l.getLast hne = '/' := by
        have hq := List.getLast?_eq_getLast l hne
        rw [hq] at hc
        exact Option.some.inj hc.2
      have hll : l = l.dropLast.dropLast ++ ['/', '/'] := by
        conv_lhs => rw [← h2, ← h1]
        rw [hg1, hg2, List.append_assoc]
        rfl
      rw [hll, noDupSlash_no_double_tail] at h
      exact Bool.false_ne_true h
    · rw [if_neg hc]; exact hc
  rw [show dropTrailingSlash (dropTrailingSlash l) =
      if 1 < (dropTrailingSlash l).length ∧ (dropTrailingSlash l).getLast? = some '/'
      then (dropTrailingSlash l).dropLast else dropTrailingSlash l from rfl]
  rw [if_neg key]

theorem collapseSlashes_subset (l : List Char) (b : Bool) :
    ∀ a, a ∈ collapseSlashes l b → a ∈ l := by
  induction l generalizing b with
  | nil => intro a ha; simp [collapseSlashes] at ha
  | cons c rest ih =>
    intro a ha
    by_cases hc : c = '/'
    · subst hc
      cases b with
      | true =>
        rw [show collapseSlashes ('/' :: rest) true = collapseSlashes rest true by
          simp [collapseSlashes]] at ha
        exact List.mem_cons_of_mem _ (ih true a ha)
      | false =>
        rw [show collapseSlashes ('/' :: rest) false = '/' :: collapseSlashes rest true by
          simp [collapseSlashes]] at ha
        rcases List.mem_cons.mp ha with h | h
        · exact h ▸ List.mem_cons_self _ _
        · exact List.mem_cons_of_mem _ (ih true a h)
    · rw [show collapseSlashes (c :: rest) b = c :: collapseSlashes rest false by
        simp [collapseSlashes, hc]] at ha
      rcases List.mem_cons.mp ha with h | h
      · exact h ▸ List.mem_cons_self _ _
      · exact List.mem_cons_of_mem _ (ih false a h)

theorem collapseSlashes_length_le (l : List Char) (b : Bool) :
    (collapseSlashes l b).length ≤ l.length := by
  induction l generalizing b with
  | nil => simp [collapseSlashes]
  | cons c rest ih =>
    by_cases hc : c = '/'
    · subst hc
      cases b with
      | true =>
        rw [show collapseSlashes ('/' :: rest) true = collapseSlashes rest true by
          simp [collapseSlashes]]
        exact le_trans (ih true) (by simp)
      | false =>
        rw [show collapseSlashes ('/' :: rest) false = '/' :: collapseSlashes rest true by
          simp [collapseSlashes]]
        simpa using ih true
    · rw [show collapseSlashes (c :: rest) b = c :: collapseSlashes rest false by
        simp [collapseSlashes, hc]]
      simpa using ih false

theorem dropTrailingSlash_sublist (l : List Char) :
    List.Sublist (dropTrailingSlash l) l := by
  rw [dropTrailingSlash]
  by_cases hc : 1 < l.length ∧ l.getLast? = some '/'
  · rw [if_pos hc]; exact List.dropLast_sublist l
  · rw [if_neg hc]

theorem normalized_no_backslash (x : List Char) :
    ∀ a ∈ dropTrailingSlash (collapseSlashes (x.map replaceBackslash) false), a ≠ '\\' := by
  intro a ha
  have h1 : a ∈ collapseSlashes (x.map replaceBackslash) false :=
    (dropTrailingSlash_sublist _).subset ha
  have h2 : a ∈ x.map replaceBackslash := collapseSlashes_subset _ _ a h1
  obtain ⟨c, _, hc⟩ := List.mem_map.mp h2
  intro hcontra
  rw [hcontra] at hc
  by_cases h : c = '\\' <;> simp [replaceBackslash, h] at hc

theorem normalized_noDupSlash (x : List Char) :
    noDupSlash (dropTrailingSlash (collapseSlashes (x.map replaceBackslash) false)) = true := by
  have h := (collapseSlashes_shape (x.map replaceBackslash)).1
  rw [dropTrailingSlash]
  by_cases hc : 1 < (collapseSlashes (x.map replaceBackslash) false).length ∧
      (collapseSlashes (x.map replaceBackslash) false).getLast? = some '/'
  · rw [if_pos hc]; exact noDupSlash_dropLast _ h
  · rw [if_neg hc]; exact h

theorem normalize_fixes_normalized (x : List Char) :
    dropTrailingSlash (collapseSlashes
        ((dropTrailingSlash (collapseSlashes (x.map replaceBackslash) false)).map
          replaceBackslash) false) =
      dropTrailingSlash (collapseSlashes (x.map replaceBackslash) false) := by
  set y := dropTrailingSlash (collapseSlashes (x.map replaceBackslash) false) with hy
  have hmap : y.map replaceBackslash = y := by
    have : ∀ a ∈ y, replaceBackslash a = a := by
      intro a ha
      have := normalized_no_backslash x a (hy ▸ ha)
      simp [replaceBackslash, this]
    calc y.map replaceBackslash = y.map id := List.map_congr_left this
    _ = y := List.map_id y
  have hcol : collapseSlashes y false = y :=
    (collapseSlashes_of_noDupSlash y (hy ▸ normalized_noDupSlash x)).1
  have hdt : dropTrailingSlash y = y := by
    rw [hy]
    exact dropTrailingSlash_stable _ (collapseSlashes_shape (x.map replaceBackslash)).1
  rw [hmap, hcol, hdt]

/-- Claim C9 — `proto_normalize_path` (protocol.c:317) is idempotent: for
every path that fits the buffer, normalising an already-normalised path
changes nothing. -/
theorem c9_normalize_idempotent (x : List Char) (max : Nat) (y : List Char)
    (h : proto_normalize_path x max = some y) :
    proto_normalize_path y max = some y := by
  rw [proto_normalize_path] at h
  by_cases h0 : max = 0
  · rw [if_pos h0] at h; exact absurd h (by simp)
  · rw [if_neg h0] at h
    by_cases h1 : max ≤ x.length
    · rw [if_pos h1] at h; exact absurd h (by simp)
    · rw [if_neg h1] at h
      have hy : y = dropTrailingSlash (collapseSlashes (x.map replaceBackslash) false) :=
        (Option.some.inj h).symm
      have hlen : y.length ≤ x.length := by
        rw [hy]
        calc (dropTrailingSlash (collapseSlashes (x.map replaceBackslash) false)).length
            ≤ (collapseSlashes (x.map replaceBackslash) false).length :=
              (dropTrailingSlash_sublist _).length_le
        _ ≤ (x.map replaceBackslash).length := collapseSlashes_length_le _ _
        _ = x.length := List.length_map _ _
      rw [proto_normalize_path, if_neg h0, if_neg (by omega : ¬ max ≤ y.length)]
      rw [hy, normalize_fixes_normalized]

/-- Witness for C9 at a concrete input with a backslash, a duplicate
slash and a trailing slash. -/
theorem c9_normalize_idempotent_witness :
    proto_normalize_path ['a', '/', 'b'] 16 = some ['a', '/', 'b'] :=
  c9_normalize_idempotent ['a', '\\', '/', 'b', '/'] 16 ['a', '/', 'b'] (by rfl)

/-! ## Command parsing (`protocol.c`, claim C5)

`proto_parse_command` copies the line into a 530-byte buffer
(`PROTO_MAX_CMD_ARG + PROTO_MAX_CMD_NAME + 10`), truncates at the first
CRLF, trims whitespace, splits at the first space, stores the verb
truncated to `PROTO_MAX_CMD_NAME - 1` characters and uppercased, and the
trimmed argument truncated to `PROTO_MAX_CMD_ARG - 1` characters. -/

def PROTO_MAX_CMD_NAME : Nat := 8

def PROTO_MAX_CMD_ARG : Nat := 512

structure ProtoCommand where
  command : List Char
  argument : List Char
  has_argument : Bool
deriving DecidableEq

/-- Truncation at the first `"\r\n"` occurrence (the `strstr` call of
`proto_parse_command`). -/
def removeCRLF : List Char → List Char
  | [] => []
  | c :: rest =>
    if c = '\r' ∧ rest.head? = some '\n' then []
    else c :: removeCRLF rest

/-- Split at the first space (the `strchr(buffer, ' ')` call);
`none` when the buffer has no space. -/
def splitAtFirstSpace : List Char → Option (List Char × List Char)
  | [] => none
  | c :: rest =>
    if c = ' ' then some ([], rest)
    else (splitAtFirstSpace rest).map (fun p => (c :: p.1, p.2))

def proto_parse_command (line : List Char) : Option ProtoCommand :=
  if PROTO_MAX_CMD_ARG + PROTO_MAX_CMD_NAME + 10 ≤ line.length then none
  else
    let buffer := trim_whitespace (removeCRLF line)
    if buffer.length = 0 then none
    else
      match splitAtFirstSpace buffer with
      | some (name, tail) =>
        let arg := (trim_whitespace tail).take (PROTO_MAX_CMD_ARG - 1)
        some ⟨to_uppercase (name.take (PROTO_MAX_CMD_NAME - 1)), arg,
          decide (0 < arg.length)⟩
      | none =>
        some ⟨to_uppercase (buffer.take (PROTO_MAX_CMD_NAME - 1)), [], false⟩

theorem splitAtFirstSpace_none (l : List Char) (h : splitAtFirstSpace l = none) :
    ' ' ∉ l := by
  induction l with
  | nil => simp
  | cons c rest ih =>
    rw [splitAtFirstSpace] at h
    by_cases hc : c = ' '
    · rw [if_pos hc] at h; exact absurd h (by simp)
    · rw [if_neg hc] at h
      intro hmem
      rcases List.mem_cons.mp hmem with h' | h'
      · exact hc h'.symm
      · exact ih (by simpa using h) h'

theorem splitAtFirstSpace_some (l : List Char) :
    ∀ a b, splitAtFirstSpace l = some (a, b) → l = a ++ ' ' :: b ∧ ' ' ∉ a := by
  induction l with
  | nil => intro a b h; exact absurd h (by simp [splitAtFirstSpace])
  | cons c rest ih =>
    intro a b h
    rw [splitAtFirstSpace] at h
    by_cases hc : c = ' '
    · rw [if_pos hc] at h
      obtain ⟨ha, hb⟩ := Prod.mk.inj (Option.some.inj h)
      subst ha; subst hb; subst hc
      exact ⟨rfl, by simp⟩
    · rw [if_neg hc] at h
      cases hsplit : splitAtFirstSpace rest with
      | none => rw [hsplit] at h; exact absurd h (by simp)
      | some p =>
        rw [hsplit] at h
        rw [show (some p).map (fun q => (c :: q.1, q.2)) = some (c :: p.1, p.2) from rfl] at h
        obtain ⟨ha, hb⟩ := Prod.mk.inj (Option.some.inj h)
        obtain ⟨hr, hnm⟩ := ih p.1 p.2 (by rw [hsplit])
        subst hb
        constructor
        · rw [← ha, hr]; rfl
        · rw [← ha]
          intro hmem
          rcases List.mem_cons.mp hmem with h' | h'
          · exact hc h'.symm
          · exact hnm h'

/-- Claim C5 counterexample — the claim says the stored verb is limited
to 4 characters (plus NUL), but `PROTO_MAX_CMD_NAME` is 8, so
`proto_parse_command` keeps up to 7 characters: the 8-character verb
`ABCDEFGH` is stored as the 7-character `ABCDEFG`, not cut at 4. -/
theorem c5_counterexample :
    proto_parse_command ("ABCDEFGH".data ++ ['\r', '\n']) =
      some ⟨"ABCDEFG".data, [], false⟩ ∧
    ¬ ("ABCDEFG".data.length ≤ 4) := by
  constructor
  · rfl
  · decide

/-- Claim C5 (amended) — `proto_parse_command` trims the CRLF and the
surrounding whitespace, splits at the first space, uppercases the verb
and limits it to 7 characters (plus NUL, the 8-byte
`PROTO_MAX_CMD_NAME` buffer), and stores the whitespace-trimmed
argument limited to 511 characters. -/
theorem c5_parse_shape (line : List Char) (cmd : ProtoCommand)
    (h : proto_parse_command line = some cmd) :
    cmd.command.length ≤ 7 ∧ cmd.argument.length ≤ 511 ∧
    cmd.has_argument = decide (0 < cmd.argument.length) ∧
    ((' ' ∉ trim_whitespace (removeCRLF line) ∧
      cmd.command = to_uppercase ((trim_whitespace (removeCRLF line)).take 7) ∧
      cmd.argument = []) ∨
     (∃ pre post, trim_whitespace (removeCRLF line) = pre ++ ' ' :: post ∧
      ' ' ∉ pre ∧
      cmd.command = to_uppercase (pre.take 7) ∧
      cmd.argument = (trim_whitespace post).take 511)) := by
  rw [proto_parse_command] at h
  by_cases hA : PROTO_MAX_CMD_ARG + PROTO_MAX_CMD_NAME + 10 ≤ line.length
  · rw [if_pos hA] at h; exact absurd h (by simp)
  · rw [if_neg hA] at h
    simp only at h
    by_cases hB : (trim_whitespace (removeCRLF line)).length = 0
    · rw [if_pos hB] at h; exact absurd h (by simp)
    · rw [if_neg hB] at h
      cases hsplit : splitAtFirstSpace (trim_whitespace (removeCRLF line)) with
      | none =>
        rw [hsplit] at h
        have hcmd := (Option.some.inj h).symm
        subst hcmd
        refine ⟨?_, by simp, by simp, Or.inl ⟨?_, rfl, rfl⟩⟩
        · simp only [to_uppercase, List.length_map, List.length_take, PROTO_MAX_CMD_NAME]
          omega
        · exact splitAtFirstSpace_none _ hsplit
      | some p =>
        rw [hsplit] at h
        have hcmd := (Option.some.inj h).symm
        subst hcmd
        obtain ⟨heq, hnm⟩ := splitAtFirstSpace_some _ p.1 p.2 (by rw [hsplit])
        refine ⟨?_, ?_, by simp, Or.inr ⟨p.1, p.2, heq, hnm, rfl, rfl⟩⟩
        · simp only [to_uppercase, List.length_map, List.length_take, PROTO_MAX_CMD_NAME]
          omega
        · simp only [List.length_take, PROTO_MAX_CMD_ARG]
          omega

/-- Witness for the amended C5 at the line `"user hello\r\n"`. -/
theorem c5_parse_shape_witness :
    "USER".data.length ≤ 7 ∧ "hello".data.length ≤ 511 ∧
    true = decide (0 < "hello".data.length) ∧
    ((' ' ∉ trim_whitespace (removeCRLF "user hello\r\n".data) ∧
      "USER".data = to_uppercase ((trim_whitespace (removeCRLF "user hello\r\n".data)).take 7) ∧
      "hello".data = ([] : List Char)) ∨
     (∃ pre post, trim_whitespace (removeCRLF "user hello\r\n".data) = pre ++ ' ' :: post ∧
      ' ' ∉ pre ∧
      "USER".data = to_uppercase (pre.take 7) ∧
      "hello".data = (trim_whitespace post).take 511)) :=
  c5_parse_shape "user hello\r\n".data ⟨"USER".data, "hello".data, true⟩ (by rfl)

/-! ## PORT / PASV codec (`protocol.c`, claim C7)

`proto_parse_port` reads six decimal numbers separated by commas
(`sscanf("%u,%u,%u,%u,%u,%u")`) and rejects any value above 255.
`proto_port_to_address` renders the dotted-quad IP string and computes
`(uint16_t)(p1 * 256 + p2)`.  `proto_address_to_pasv` parses a
dotted-quad string, rejects octets above 255, and splits the port into
`(uint8_t)(port / 256)` and `(uint8_t)(port % 256)`.  Decimal rendering
(the `snprintf("%u")` side) is embedded by `natToDecDigits`; the
number parsing of `sscanf("%u")` on such digit strings is embedded by
`parseDecNum` (maximal run of digits, then its decimal value). -/

def isDigitChar (c : Char) : Bool :=
  '0' ≤ c && c ≤ '9'

def decDigitChar (n : Nat) : Char :=
  Char.ofNat (48 + n)

/-- Fuel-bounded decimal rendering; `natToDecDigits` always supplies
enough fuel, so the fuel never runs out. -/
def natToDecAux : Nat → Nat → List Char
  | 0, _ => []
  | fuel + 1, n =>
    if n < 10 then [decDigitChar n]
    else natToDecAux fuel (n / 10) ++ [decDigitChar (n % 10)]

def natToDecDigits (n : Nat) : List Char :=
  natToDecAux (n + 1) n

def decValue (ds : List Char) : Nat :=
  ds.foldl (fun acc c => acc * 10 + (c.toNat - 48)) 0

def parseDecNum (l : List Char) : Option (Nat × List Char) :=
  let ds := l.takeWhile isDigitChar
  if ds.length = 0 then none else some (decValue ds, l.drop ds.length)

def expectChar (c : Char) (l : List Char) : Option (List Char) :=
  match l with
  | d :: rest => if d = c then some rest else none
  | [] => none

structure PortParams where
  h1 : Nat
  h2 : Nat
  h3 : Nat
  h4 : Nat
  p1 : Nat
  p2 : Nat
deriving DecidableEq

def proto_parse_port (arg : List Char) : Option PortParams :=
  (parseDecNum arg).bind fun x1 =>
  (expectChar ',' x1.2).bind fun r1 =>
  (parseDecNum r1).bind fun x2 =>
  (expectChar ',' x2.2).bind fun r2 =>
  (parseDecNum r2).bind fun x3 =>
  (expectChar ',' x3.2).bind fun r3 =>
  (parseDecNum r3).bind fun x4 =>
  (expectChar ',' x4.2).bind fun r4 =>
  (parseDecNum r4).bind fun x5 =>
  (expectChar ',' x5.2).bind fun r5 =>
  (parseDecNum r5).bind fun x6 =>
  if x1.1 ≤ 255 ∧ x2.1 ≤ 255 ∧ x3.1 ≤ 255 ∧ x4.1 ≤ 255 ∧ x5.1 ≤ 255 ∧ x6.1 ≤ 255
  then some ⟨x1.1, x2.1, x3.1, x4.1, x5.1, x6.1⟩
  else none

/-- Rendering of the `"%u.%u.%u.%u"` dotted-quad IP string. -/
def renderIPv4 (a b c d : Nat) : List Char :=
  natToDecDigits a ++ '.' :: natToDecDigits b ++ '.' :: natToDecDigits c ++
    '.' :: natToDecDigits d

/-- Rendering of the `"h1,h2,h3,h4,p1,p2"` PORT argument produced from
PASV parameters (`proto_format_pasv_response`'s numeric payload). -/
def renderPortArg (p : PortParams) : List Char :=
  natToDecDigits p.h1 ++ ',' :: natToDecDigits p.h2 ++ ',' :: natToDecDigits p.h3 ++
    ',' :: natToDecDigits p.h4 ++ ',' :: natToDecDigits p.p1 ++ ',' :: natToDecDigits p.p2

def proto_port_to_address (p : PortParams) : List Char × Nat :=
  (renderIPv4 p.h1 p.h2 p.h3 p.h4, (p.p1 * 256 + p.p2) % 65536)

def parseIPv4 (s : List Char) : Option (Nat × Nat × Nat × Nat) :=
  (parseDecNum s).bind fun x1 =>
  (expectChar '.' x1.2).bind fun r1 =>
  (parseDecNum r1).bind fun x2 =>
  (expectChar '.' x2.2).bind fun r2 =>
  (parseDecNum r2).bind fun x3 =>
  (expectChar '.' x3.2).bind fun r3 =>
  (parseDecNum r3).bind fun x4 =>
  some (x1.1, x2.1, x3.1, x4.1)

def proto_address_to_pasv (ip_address : List Char) (port : Nat) : Option PortParams :=
  (parseIPv4 ip_address).bind fun q =>
  if q.1 ≤ 255 ∧ q.2.1 ≤ 255 ∧ q.2.2.1 ≤ 255 ∧ q.2.2.2 ≤ 255
  then some ⟨q.1, q.2.1, q.2.2.1, q.2.2.2, (port / 256) % 256, port % 256⟩
  else none

set_option maxRecDepth 40000 in
theorem natToDecDigits_facts :
    ∀ n, n < 256 → natToDecDigits n ≠ [] ∧
      (natToDecDigits n).all isDigitChar = true ∧ decValue (natToDecDigits n) = n := by
  decide

theorem takeWhile_append_not (p : Char → Bool) (ds rest : List Char)
    (hds : ds.all p = true) (hrest : ∀ c, rest.head? = some c → p c = false) :
    (ds ++ rest).takeWhile p = ds ∧ (ds ++ rest).drop ds.length = rest := by
  constructor
  · induction ds with
    | nil =>
      cases rest with
      | nil => rfl
      | cons c t =>
        simp only [List.nil_append, List.takeWhile]
        rw [hrest c rfl]
    | cons d t ih =>
      simp only [List.all_cons, Bool.and_eq_true] at hds
      simp only [List.cons_append, List.takeWhile, hds.1]
      rw [show t.append rest = t ++ rest from rfl, ih hds.2]
  · exact List.drop_left ds rest

theorem parseDecNum_render (n : Nat) (rest : List Char) (hn : n < 256)
    (hrest : ∀ c, rest.head? = some c → isDigitChar c = false) :
    parseDecNum (natToDecDigits n ++ rest) = some (n, rest) := by
  obtain ⟨hne, hall, hval⟩ := natToDecDigits_facts n hn
  obtain ⟨htake, hdrop⟩ := takeWhile_append_not isDigitChar (natToDecDigits n) rest hall hrest
  rw [parseDecNum]
  simp only [htake, hdrop]
  rw [if_neg (by simpa using hne)]
  rw [hval]

theorem head_cons_not_digit (d : Char) (l : List Char) (hd : isDigitChar d = false) :
    ∀ c, (d :: l).head? = some c → isDigitChar c = false := by
  intro c h
  rw [List.head?_cons] at h
  rw [← Option.some.inj h]
  exact hd

theorem expectChar_cons (c : Char) (R : List Char) : expectChar c (c :: R) = some R := by
  rw [expectChar, if_pos rfl]

/-- Claim C7 — formatting an IPv4 endpoint as the six comma-separated
PORT bytes (`proto_address_to_pasv` then the `h1,…,p2` rendering) and
parsing it back (`proto_parse_port` then `proto_port_to_address`)
returns exactly the original dotted-quad address and port. -/
theorem c7_port_pasv_round_trip (a b c d p : Nat)
    (ha : a ≤ 255) (hb : b ≤ 255) (hc : c ≤ 255) (hd : d ≤ 255)
    (hpmin : 1024 ≤ p) (hpmax : p ≤ 65535) :
    ∃ params : PortParams,
      proto_address_to_pasv (renderIPv4 a b c d) p = some params ∧
      proto_parse_port (renderPortArg params) = some params ∧
      proto_port_to_address params = (renderIPv4 a b c d, p) := by
  have hdotD : isDigitChar '.' = false := by decide
  have hcommaD : isDigitChar ',' = false := by decide
  have hp1 : p / 256 ≤ 255 := by omega
  have hp2 : p % 256 ≤ 255 := by omega
  have hRIeq : renderIPv4 a b c d =
      natToDecDigits a ++ '.' :: (natToDecDigits b ++ '.' ::
        (natToDecDigits c ++ '.' :: natToDecDigits d)) := by
    simp only [renderIPv4, List.cons_append, List.append_assoc]
  have hA : parseDecNum (natToDecDigits a ++ '.' :: (natToDecDigits b ++ '.' ::
      (natToDecDigits c ++ '.' :: natToDecDigits d))) =
      some (a, '.' :: (natToDecDigits b ++ '.' ::
        (natToDecDigits c ++ '.' :: natToDecDigits d))) :=
    parseDecNum_render a _ (by omega) (head_cons_not_digit '.' _ hdotD)
  have hB : parseDecNum (natToDecDigits b ++ '.' ::
      (natToDecDigits c ++ '.' :: natToDecDigits d)) =
      some (b, '.' :: (natToDecDigits c ++ '.' :: natToDecDigits d)) :=
    parseDecNum_render b _ (by omega) (head_cons_not_digit '.' _ hdotD)
  have hC : parseDecNum (natToDecDigits c ++ '.' :: natToDecDigits d) =
      some (c, '.' :: natToDecDigits d) :=
    parseDecNum_render c _ (by omega) (head_cons_not_digit '.' _ hdotD)
  have hD : parseDecNum (natToDecDigits d) = some (d, []) := by
    have := parseDecNum_render d [] (by omega) (by intro c h; exact absurd h (by simp))
    rwa [List.append_nil] at this
  have hparse : parseIPv4 (renderIPv4 a b c d) = some (a, b, c, d) := by
    rw [hRIeq, parseIPv4, hA, Option.some_bind, expectChar_cons, Option.some_bind, hB,
      Option.some_bind, expectChar_cons, Option.some_bind, hC, Option.some_bind,
      expectChar_cons, Option.some_bind, hD, Option.some_bind]
  refine ⟨⟨a, b, c, d, (p / 256) % 256, p % 256⟩, ?_, ?_, ?_⟩
  · rw [proto_address_to_pasv, hparse, Option.some_bind,
      if_pos ⟨ha, hb, hc, hd⟩]
  · have hPAeq : renderPortArg ⟨a, b, c, d, (p / 256) % 256, p % 256⟩ =
        natToDecDigits a ++ ',' :: (natToDecDigits b ++ ',' :: (natToDecDigits c ++
          ',' :: (natToDecDigits d ++ ',' :: (natToDecDigits ((p / 256) % 256) ++
            ',' :: natToDecDigits (p % 256))))) := by
      simp only [renderPortArg, List.cons_append, List.append_assoc]
    have h1 : parseDecNum (natToDecDigits a ++ ',' :: (natToDecDigits b ++ ',' ::
        (natToDecDigits c ++ ',' :: (natToDecDigits d ++ ',' ::
          (natToDecDigits ((p / 256) % 256) ++ ',' :: natToDecDigits (p % 256)))))) =
        some (a, ',' :: (natToDecDigits b ++ ',' :: (natToDecDigits c ++ ',' ::
          (natToDecDigits d ++ ',' :: (natToDecDigits ((p / 256) % 256) ++
            ',' :: natToDecDigits (p % 256)))))) :=
      parseDecNum_render a _ (by omega) (head_cons_not_digit ',' _ hcommaD)
    have h2 : parseDecNum (natToDecDigits b ++ ',' :: (natToDecDigits c ++ ',' ::
        (natToDecDigits d ++ ',' :: (natToDecDigits ((p / 256) % 256) ++
          ',' :: natToDecDigits (p % 256))))) =
        some (b, ',' :: (natToDecDigits c ++ ',' :: (natToDecDigits d ++ ',' ::
          (natToDecDigits ((p / 256) % 256) ++ ',' :: natToDecDigits (p % 256))))) :=
      parseDecNum_render b _ (by omega) (head_cons_not_digit ',' _ hcommaD)
    have h3 : parseDecNum (natToDecDigits c ++ ',' :: (natToDecDigits d ++ ',' ::
        (natToDecDigits ((p / 256) % 256) ++ ',' :: natToDecDigits (p % 256)))) =
        some (c, ',' :: (natToDecDigits d ++ ',' ::
          (natToDecDigits ((p / 256) % 256) ++ ',' :: natToDecDigits (p % 256)))) :=
      parseDecNum_render c _ (by omega) (head_cons_not_digit ',' _ hcommaD)
    have h4 : parseDecNum (natToDecDigits d ++ ',' ::
        (natToDecDigits ((p / 256) % 256) ++ ',' :: natToDecDigits (p % 256))) =
        some (d, ',' :: (natToDecDigits ((p / 256) % 256) ++
          ',' :: natToDecDigits (p % 256))) :=
      parseDecNum_render d _ (by omega) (head_cons_not_digit ',' _ hcommaD)
    have h5 : parseDecNum (natToDecDigits ((p / 256) % 256) ++
        ',' :: natToDecDigits (p % 256)) =
        some ((p / 256) % 256, ',' :: natToDecDigits (p % 256)) :=
      parseDecNum_render ((p / 256) % 256) _ (by omega) (head_cons_not_digit ',' _ hcommaD)
    have h6 : parseDecNum (natToDecDigits (p % 256)) = some (p % 256, []) := by
      have := parseDecNum_render (p % 256) [] (by omega)
        (by intro c h; exact absurd h (by simp))
      rwa [List.append_nil] at this
    rw [hPAeq, proto_parse_port, h1, Option.some_bind, expectChar_cons, Option.some_bind,
      h2, Option.some_bind, expectChar_cons, Option.some_bind,
      h3, Option.some_bind, expectChar_cons, Option.some_bind,
      h4, Option.some_bind, expectChar_cons, Option.some_bind,
      h5, Option.some_bind, expectChar_cons, Option.some_bind,
      h6, Option.some_bind]
    rw [if_pos ⟨ha, hb, hc, hd, by omega, hp2⟩]
  · rw [proto_port_to_address]
    have hmod : ((p / 256) % 256 * 256 + p % 256) % 65536 = p := by
      have hx : (p / 256) % 256 = p / 256 := Nat.mod_eq_of_lt (by omega)
      rw [hx]
      have := Nat.div_add_mod p 256
      omega
    rw [hmod]

/-- Witness for C7 at the address 192.168.1.10 and port 20000
(p1 = 78, p2 = 32). -/
theorem c7_port_pasv_round_trip_witness :
    ∃ params : PortParams,
      proto_address_to_pasv (renderIPv4 192 168 1 10) 20000 = some params ∧
      proto_parse_port (renderPortArg params) = some params ∧
      proto_port_to_address params = (renderIPv4 192 168 1 10, 20000) :=
  c7_port_pasv_round_trip 192 168 1 10 20000 (by decide) (by decide) (by decide)
    (by decide) (by decide) (by decide)

/-- Claim C8 — for every byte string `x` and every output buffer large
enough for the LF-to-CRLF direction (positive, as `utils.c` demands,
and of at least twice the input length, the sizing `transfer.c` uses),
the conversion succeeds, and converting its result back from CRLF to LF
through any sufficiently large positive buffer yields exactly `x`:
`crlf_to_lf(lf_to_crlf(x)) == x`. -/
theorem c8_line_ending_round_trip (x : List Char) (cap1 : Nat)
    (hpos1 : 0 < cap1) (hcap1 : 2 * x.length ≤ cap1) :
    ∃ y, lf_to_crlf x cap1 = some y ∧
      ∀ cap2, 0 < cap2 → y.length ≤ cap2 → crlf_to_lf y cap2 = some x := by
  refine ⟨lfToCrlfFn x, lf_to_crlf_eq_of_cap x cap1 hpos1 hcap1, ?_⟩
  intro cap2 hpos2 hcap2
  rw [crlf_to_lf_eq_of_cap (lfToCrlfFn x) cap2 hpos2 hcap2, crlfToLf_lfToCrlf]

/-- Witness for C8 at the input `"a\nb"` with a 6-byte output buffer:
the lone LF becomes CRLF on the way out and collapses back. -/
theorem c8_line_ending_round_trip_witness :
    ∃ y, lf_to_crlf ['a', '\n', 'b'] 6 = some y ∧
      ∀ cap2, 0 < cap2 → y.length ≤ cap2 → crlf_to_lf y cap2 = some ['a', '\n', 'b'] :=
  c8_line_ending_round_trip ['a', '\n', 'b'] 6 (by decide) (by decide)

/-! ## Virtual-path resolution (`session.c`, claims C1 and C10)

`normalize_and_validate_path` joins the client path with the current
virtual directory (absolute client paths are used directly), normalises
it with `proto_normalize_path`, splits it at `/` (`strtok`, which skips
empty tokens), resolves `.` and `..` against a component stack capped at
256 entries (`..` at the empty stack is a no-op), rebuilds
`"/" + join(stack, "/")` and finally rejects the result when
`proto_validate_path` flags the part after the leading slash.  Buffers
are `SESSION_MAX_PATH = 1024` bytes, so `strncpy`/`snprintf`/`strncat`
truncate the payload to 1023 characters. -/

def SESSION_MAX_PATH : Nat := 1024

def listStartsWith : List Char → List Char → Bool
  | [], _ => true
  | _ :: _, [] => false
  | p :: ps, c :: cs => p = c && listStartsWith ps cs

/-- Embedding of `strstr(haystack, pat) != NULL` for a nonempty
pattern. -/
def listContainsSub (pat : List Char) : List Char → Bool
  | [] => listStartsWith pat []
  | c :: rest => listStartsWith pat (c :: rest) || listContainsSub pat rest

/-- Embedding of `proto_validate_path` (protocol.c:289): reject absolute
paths, drive-letter prefixes and anything containing `".."`. -/
def proto_validate_path (path : List Char) : Bool :=
  if path.length = 0 then true
  else if path.head? = some '/' ∨ path.head? = some '\\' then false
  else if 2 ≤ path.length ∧ path.get? 1 = some ':' then false
  else if listContainsSub ['.', '.'] path then false
  else true

/-- Embedding of the `strtok(temp, "/")` loop: split on `/`, dropping
empty tokens. -/
def splitSlashAux : List Char → List Char → List (List Char)
  | [], acc => [acc.reverse]
  | c :: rest, acc =>
    if c = '/' then acc.reverse :: splitSlashAux rest []
    else splitSlashAux rest (c :: acc)

def tokenizePath (l : List Char) : List (List Char) :=
  (splitSlashAux l []).filter (fun t => ¬ t = [])

/-- Embedding of the component-resolution loop of
`normalize_and_validate_path` (session.c:902-922).  The stack holds the
components most-recent first; pushing is `cons`, `..` pops via `tail`
(a no-op at the empty stack, mirroring `if (component_count > 0)`), and
the loop stops consuming tokens once 256 components are stacked. -/
def resolveComponents : List (List Char) → List (List Char) → List (List Char)
  | [], stack => stack
  | t :: ts, stack =>
    if 256 ≤ stack.length then stack
    else if t = ['.'] then resolveComponents ts stack
    else if t = ['.', '.'] then resolveComponents ts stack.tail
    else resolveComponents ts (t :: stack)

/-- Embedding of the result-building loop (session.c:925-937): `"/"` for
an empty stack, otherwise `"/" + component` appended per component with
`strncat` truncation to `result_size - 1 = 1023` characters. -/
def buildPath (stack : List (List Char)) : List Char :=
  if stack = [] then ['/']
  else (stack.reverse.foldl (fun acc comp => acc ++ '/' :: comp) []).take
    (SESSION_MAX_PATH - 1)

/-- The `temp` buffer of `normalize_and_validate_path`: the client path
itself when absolute, otherwise `base + "/" + path` (just `"/" + path`
when the base is the root), truncated to 1023 characters. -/
def sessionTempPath (base path : List Char) : List Char :=
  if path.head? = some '/' then path.take (SESSION_MAX_PATH - 1)
  else if base = ['/'] then ('/' :: path).take (SESSION_MAX_PATH - 1)
  else (base ++ '/' :: path).take (SESSION_MAX_PATH - 1)

/-- The virtual path `normalize_and_validate_path` builds before its
final `proto_validate_path` check. -/
def nvpCandidate (base path : List Char) : Option (List Char) :=
  (proto_normalize_path (sessionTempPath base path) SESSION_MAX_PATH).map
    (fun norm => buildPath (resolveComponents (tokenizePath norm) []))

/-- Embedding of `normalize_and_validate_path` (session.c:862). -/
def normalize_and_validate_path (base path : List Char) : Option (List Char) :=
  match nvpCandidate base path with
  | none => none
  | some result =>
    if proto_validate_path (result.drop 1) then some result else none

/-- Embedding of `fs_join_path` (filesys.c:39, POSIX branch): append a
separator unless the directory already ends with one, strip leading
separators from the name, fail when the result does not fit. -/
def fs_join_path (dir name : List Char) (dest_size : Nat) : Option (List Char) :=
  let sep : List Char := if ¬ dir = [] ∧ ¬ dir.getLast? = some '/' then ['/'] else []
  let actual := name.dropWhile (fun c => c = '/')
  let joined := dir ++ sep ++ actual
  if joined.length < dest_size then some joined else none

/-- Embedding of `session_resolve_path` (session.c:387): resolve the
virtual path, then join it (without its leading slash) onto the session
root. -/
def session_resolve_path (root_dir current_dir relative_path : List Char)
    (buffer_size : Nat) : Option (List Char) :=
  match normalize_and_validate_path current_dir relative_path with
  | none => none
  | some norm => fs_join_path root_dir (norm.drop 1) buffer_size

def AUTH_PERM_ADMIN : Nat := 0x40

/-- Embedding of `session_check_path_access` (session.c:244): deny when
unauthenticated, allow outright for ADMIN, deny without the required
permission bit, resolve the virtual path, and finally require the
user's home directory (when set) to be the path itself or a
`/`-terminated prefix of it. -/
def session_check_path_access (authenticated : Bool) (permissions : Nat)
    (user_home_dir current_dir path : List Char) (required_permission : Nat) : Bool :=
  if authenticated = false then false
  else if ¬ permissions &&& AUTH_PERM_ADMIN = 0 then true
  else if ¬ permissions &&& required_permission = required_permission then false
  else
    match normalize_and_validate_path current_dir path with
    | none => false
    | some np =>
      if user_home_dir = [] then true
      else if np.take user_home_dir.length = user_home_dir ∧
          (np.get? user_home_dir.length = none ∨ np.get? user_home_dir.length = some '/')
      then true
      else false

theorem foldl_join_append (comps : List (List Char)) (acc : List Char) :
    comps.foldl (fun a comp => a ++ '/' :: comp) acc =
      acc ++ comps.foldl (fun a comp => a ++ '/' :: comp) [] := by
  induction comps generalizing acc with
  | nil => simp
  | cons c cs ih =>
    simp only [List.foldl_cons, List.nil_append]
    rw [ih (acc ++ '/' :: c), ih ('/' :: c), List.append_assoc]

theorem buildPath_head (stack : List (List Char)) :
    (buildPath stack).head? = some '/' := by
  rw [buildPath]
  by_cases h : stack = []
  · rw [if_pos h]; rfl
  · rw [if_neg h]
    have hrev : stack.reverse ≠ [] := by simpa using h
    obtain ⟨c, cs, hc⟩ := List.exists_cons_of_ne_nil hrev
    rw [hc]
    simp only [List.foldl_cons, List.nil_append]
    rw [foldl_join_append cs ('/' :: c), List.cons_append]
    rw [show SESSION_MAX_PATH - 1 = 1022 + 1 from rfl, List.take_succ_cons,
      List.head?_cons]

/-- Claim C1 — the path resolver's containment properties: `..` at the
empty component stack is a no-op; every virtual path the resolver
produces starts with `/`; and the absolute OS path built by
`session_resolve_path` always has the session root as a prefix. -/
theorem c1_resolver_containment :
    (∀ ts : List (List Char),
      resolveComponents (['.', '.'] :: ts) [] = resolveComponents ts []) ∧
    (∀ base path v, normalize_and_validate_path base path = some v →
      v.head? = some '/') ∧
    (∀ root_dir current_dir relative_path buffer_size abs_path,
      session_resolve_path root_dir current_dir relative_path buffer_size =
        some abs_path →
      ∃ t, abs_path = root_dir ++ t) := by
  refine ⟨fun ts => rfl, ?_, ?_⟩
  · intro base path v h
    rw [normalize_and_validate_path] at h
    cases hcand : nvpCandidate base path with
    | none => rw [hcand] at h; exact absurd h (by simp)
    | some r =>
      rw [hcand] at h
      have h2 : (if proto_validate_path (r.drop 1) = true then some r else none) =
          some v := h
      by_cases hval : proto_validate_path (r.drop 1) = true
      · rw [if_pos hval] at h2
        rw [← Option.some.inj h2]
        rw [nvpCandidate] at hcand
        cases hnorm : proto_normalize_path (sessionTempPath base path) SESSION_MAX_PATH with
        | none => rw [hnorm] at hcand; exact absurd hcand (by simp)
        | some norm =>
          rw [hnorm] at hcand
          simp only [Option.map] at hcand
          rw [← Option.some.inj hcand]
          exact buildPath_head _
      · rw [if_neg hval] at h2; exact absurd h2 (by simp)
  · intro root_dir current_dir relative_path buffer_size abs_path h
    rw [session_resolve_path] at h
    cases hnv : normalize_and_validate_path current_dir relative_path with
    | none => rw [hnv] at h; exact absurd h (by simp)
    | some norm =>
      rw [hnv] at h
      have h2 : (if (root_dir ++
          (if ¬ root_dir = [] ∧ ¬ root_dir.getLast? = some '/' then ['/'] else []) ++
          (norm.drop 1).dropWhile (fun c => c = '/')).length < buffer_size
        then some (root_dir ++
          (if ¬ root_dir = [] ∧ ¬ root_dir.getLast? = some '/' then ['/'] else []) ++
          (norm.drop 1).dropWhile (fun c => c = '/'))
        else none) = some abs_path := h
      by_cases hfit : (root_dir ++
          (if ¬ root_dir = [] ∧ ¬ root_dir.getLast? = some '/' then ['/'] else []) ++
          (norm.drop 1).dropWhile (fun c => c = '/')).length < buffer_size
      · rw [if_pos hfit] at h2
        refine ⟨(if ¬ root_dir = [] ∧ ¬ root_dir.getLast? = some '/' then ['/'] else []) ++
          (norm.drop 1).dropWhile (fun c => c = '/'), ?_⟩
        rw [← Option.some.inj h2, List.append_assoc]
      · rw [if_neg hfit] at h2; exact absurd h2 (by simp)

/-- Witness for C1: `..` alone resolves at the empty stack; resolving
`x` from the root yields the virtual path `/x`; joining it onto the
root `/srv` yields `/srv/x`, which has `/srv` as a prefix. -/
theorem c1_resolver_containment_witness :
    resolveComponents [['.', '.']] [] = resolveComponents [] [] ∧
    (['/', 'x'] : List Char).head? = some '/' ∧
    (∃ t, ['/', 's', 'r', 'v', '/', 'x'] = ['/', 's', 'r', 'v'] ++ t) :=
  ⟨c1_resolver_containment.1 [],
   c1_resolver_containment.2.1 ['/'] ['x'] ['/', 'x'] (by rfl),
   c1_resolver_containment.2.2 ['/', 's', 'r', 'v'] ['/'] ['x'] 100
     ['/', 's', 'r', 'v', '/', 'x'] (by rfl)⟩

theorem validate_false_of_contains (q : List Char)
    (h : listContainsSub ['.', '.'] q = true) : proto_validate_path q = false := by
  rw [proto_validate_path]
  by_cases h0 : q.length = 0
  · exfalso
    have hq : q = [] := List.length_eq_zero.mp h0
    subst hq
    exact absurd h (by decide)
  · rw [if_neg h0]
    by_cases h1 : q.head? = some '/' ∨ q.head? = some '\\'
    · rw [if_pos h1]
    · rw [if_neg h1]
      by_cases h2 : 2 ≤ q.length ∧ q.get? 1 = some ':'
      · rw [if_pos h2]
      · rw [if_neg h2, if_pos h]

theorem contains_dotdot_drop_one (r : List Char) (hhead : r.head? = some '/')
    (h : listContainsSub ['.', '.'] r = true) :
    listContainsSub ['.', '.'] (r.drop 1) = true := by
  cases r with
  | nil => exact absurd hhead (by simp)
  | cons c rest =>
    have hc : c = '/' := by
      rw [List.head?_cons] at hhead
      exact Option.some.inj hhead
    subst hc
    rw [listContainsSub] at h
    rw [show listStartsWith ['.', '.'] ('/' :: rest) = false by
      simp [listStartsWith]] at h
    rw [Bool.false_or] at h
    simpa using h

/-- Claim C10 counterexample — for the relative path `a..b` (a file
name that legitimately contains consecutive dots) the resolver does
fail, but the access check does **not** fail for an ADMIN session
(permission mask 0x40): `session_check_path_access` returns true before
ever normalising the path. -/
theorem c10_counterexample :
    normalize_and_validate_path ['/'] ['a', '.', '.', 'b'] = none ∧
    session_check_path_access true 64 ['/', 'h'] ['/'] ['a', '.', '.', 'b'] 1 = true :=
  ⟨by rfl, by rfl⟩

/-- Claim C10 (amended) — whenever the resolved, normalised virtual form
of a client path still contains the substring `..` (e.g. a component
such as `a..b`), `normalize_and_validate_path` fails, and
`session_check_path_access` fails for every session whose permission
mask lacks the ADMIN bit; an ADMIN session passes the access check, but
resolution still fails, so commands addressing such a file are refused. -/
theorem c10_dotdot_component_refused (authenticated : Bool) (permissions : Nat)
    (user_home_dir current_dir path r : List Char) (required_permission : Nat)
    (hcand : nvpCandidate current_dir path = some r)
    (hsub : listContainsSub ['.', '.'] r = true) :
    normalize_and_validate_path current_dir path = none ∧
    (permissions &&& AUTH_PERM_ADMIN = 0 →
      session_check_path_access authenticated permissions user_home_dir current_dir
        path required_permission = false) := by
  have hhead : r.head? = some '/' := by
    rw [nvpCandidate] at hcand
    cases hnorm : proto_normalize_path (sessionTempPath current_dir path)
        SESSION_MAX_PATH with
    | none => rw [hnorm] at hcand; exact absurd hcand (by simp)
    | some norm =>
      rw [hnorm] at hcand
      simp only [Option.map] at hcand
      rw [← Option.some.inj hcand]
      exact buildPath_head _
  have hval : proto_validate_path (r.drop 1) = false :=
    validate_false_of_contains _ (contains_dotdot_drop_one r hhead hsub)
  have hnone : normalize_and_validate_path current_dir path = none := by
    have hstep : normalize_and_validate_path current_dir path =
        (if proto_validate_path (r.drop 1) = true then some r else none) := by
      rw [normalize_and_validate_path, hcand]
    rw [hstep, hval]
    simp
  refine ⟨hnone, fun hadmin => ?_⟩
  rw [session_check_path_access]
  cases authenticated with
  | false => rw [if_pos rfl]
  | true =>
    rw [if_neg (by simp)]
    rw [if_neg (by simpa using hadmin)]
    by_cases hreq : ¬ permissions &&& required_permission = required_permission
    · rw [if_pos hreq]
    · rw [if_neg hreq]
      rw [hnone]

/-- Witness for the amended C10 at the path `a..b` for a non-admin
reader session. -/
theorem c10_dotdot_component_refused_witness :
    normalize_and_validate_path ['/'] ['a', '.', '.', 'b'] = none ∧
    ((1 : Nat) &&& AUTH_PERM_ADMIN = 0 →
      session_check_path_access true 1 [] ['/'] ['a', '.', '.', 'b'] 1 = false) :=
  c10_dotdot_component_refused true 1 [] ['/'] ['a', '.', '.', 'b']
    ['/', 'a', '.', '.', 'b'] 1 (by rfl) (by decide)

/-! ## Per-path reader/writer lock (`filelock.c`, claim C2)

Every operation on a lock entry runs with `g_file_lock_mutex` held, and
`pthread_cond_wait` releases that mutex while blocked, so the visible
atomic steps on one path's entry `(readers, writers, waiting_writers)`
are exactly:

* `acquireSharedDone` — the final loop exit of `file_lock_acquire_shared`
  (guard `writers == 0 && waiting_writers == 0`) together with
  `readers++`;
* `acquireExclusiveEnter` — the `waiting_writers++` of
  `file_lock_acquire_exclusive` before its wait loop;
* `acquireExclusiveDone` — the final loop exit of
  `file_lock_acquire_exclusive` (guard `writers == 0 && readers == 0`;
  `waiting_writers > 0` because the completing thread itself is counted)
  together with `waiting_writers--; writers = 1`;
* `releaseShared` — `file_lock_release_common(path, 0)`: `readers--`
  unless it is already 0 (then only a warning is logged);
* `releaseExclusive` — `file_lock_release_common(path, 1)`:
  `writers = 0`.

Entries for distinct paths are independent (`file_lock_find` keys on
`strcmp`), a fresh entry is `calloc`-zeroed, and an entry destroyed when
all three counters hit zero is indistinguishable from the zero state, so
the single-entry system below covers every interleaving on one path. -/

structure LockState where
  readers : Nat
  writers : Nat
  waiting_writers : Nat
deriving DecidableEq

inductive LockOp where
  | acquireSharedDone
  | acquireExclusiveEnter
  | acquireExclusiveDone
  | releaseShared
  | releaseExclusive
deriving DecidableEq

inductive LockStep : LockState → LockOp → LockState → Prop where
  | sharedDone (s : LockState) (hw : s.writers = 0) (hww : s.waiting_writers = 0) :
      LockStep s .acquireSharedDone { s with readers := s.readers + 1 }
  | exclEnter (s : LockState) :
      LockStep s .acquireExclusiveEnter { s with waiting_writers := s.waiting_writers + 1 }
  | exclDone (s : LockState) (hw : s.writers = 0) (hr : s.readers = 0)
      (hww : 0 < s.waiting_writers) :
      LockStep s .acquireExclusiveDone
        { s with writers := 1, waiting_writers := s.waiting_writers - 1 }
  | relShared (s : LockState) :
      LockStep s .releaseShared { s with readers := s.readers - 1 }
  | relExclusive (s : LockState) :
      LockStep s .releaseExclusive { s with writers := 0 }

inductive LockReachable : LockState → Prop where
  | init : LockReachable ⟨0, 0, 0⟩
  | step {s s' : LockState} {op : LockOp} (hs : LockReachable s)
      (hstep : LockStep s op s') : LockReachable s'

/-- The mutual-exclusion invariant of the file-lock table. -/
def lockInvariant (s : LockState) : Prop :=
  s.writers = 0 ∨ (s.writers = 1 ∧ s.readers = 0)

/-- Claim C2 — in every state reachable by any interleaving of the lock
operations, either no writer holds the lock or exactly one writer and no
readers hold it; and no reader ever completes `file_lock_acquire_shared`
while a writer is waiting. -/
theorem c2_lock_invariant :
    (∀ s, LockReachable s → lockInvariant s) ∧
    (∀ s s', LockStep s .acquireSharedDone s' → s.waiting_writers = 0) := by
  constructor
  · intro s hs
    induction hs with
    | init => exact Or.inl rfl
    | step hs hstep ih =>
      cases hstep with
      | sharedDone hw hww => exact Or.inl hw
      | exclEnter => exact ih
      | exclDone hw hr hww => exact Or.inr ⟨rfl, hr⟩
      | relShared =>
        rcases ih with h | ⟨h1, h2⟩
        · exact Or.inl h
        · exact Or.inr ⟨h1, by simp [h2]⟩
      | relExclusive => exact Or.inl rfl
  · intro s s' hstep
    cases hstep with
    | sharedDone hw hww => exact hww

/-- Witness for C2: the state after one successful shared acquisition is
reachable and satisfies the invariant, and the shared acquisition step
from the initial state requires no waiting writer. -/
theorem c2_lock_invariant_witness :
    lockInvariant ⟨1, 0, 0⟩ ∧ (⟨0, 0, 0⟩ : LockState).waiting_writers = 0 :=
  ⟨c2_lock_invariant.1 ⟨1, 0, 0⟩
    (LockReachable.step LockReachable.init (LockStep.sharedDone ⟨0, 0, 0⟩ rfl rfl)),
   c2_lock_invariant.2 ⟨0, 0, 0⟩ ⟨1, 0, 0⟩ (LockStep.sharedDone ⟨0, 0, 0⟩ rfl rfl)⟩

/-! ## Command registry and session worker replies (`command.c`,
`server.c`, claims C4 and C6)

`cmd_register_standard_handlers` (command.c:291) registers exactly the
verbs below (ALLO, STOU, STAT, HELP and SITE are commented out).
`cmd_dispatch` looks the parsed verb up by exact `strcmp` and returns
`-1` when no entry matches; `cmd_is_registered` re-truncates and
re-uppercases its argument before the same lookup.  When dispatch fails
and the verb is not registered, `client_thread` (server.c:113-127)
replies with `PROTO_RESP_COMMAND_NOT_IMPL`, which `protocol.h:238`
defines as `202`. -/

def PROTO_RESP_COMMAND_NOT_IMPL : Nat := 202

def standard_command_table : List (List Char) :=
  ["USER", "PASS", "ACCT", "CWD", "CDUP", "SMNT", "QUIT", "REIN", "PORT", "PASV",
   "TYPE", "STRU", "MODE", "REST", "STOR", "RETR", "APPE", "LIST", "NLST", "RNFR",
   "RNTO", "DELE", "RMD", "MKD", "PWD", "ABOR", "SYST", "NOOP"].map String.data

/-- Embedding of `cmd_dispatch` (command.c:133): `-1` when no table entry
matches the verb by exact comparison, otherwise the registered
handler's result (pre-hook and handler combined, supplied as an
oracle because handlers are arbitrary code). -/
def cmd_dispatch_result (table : List (List Char)) (handlerResults : List Char → Int)
    (cmdname : List Char) : Int :=
  if table.contains cmdname then handlerResults cmdname else -1

/-- Embedding of `cmd_is_registered` (command.c:164): truncate to
`PROTO_MAX_CMD_NAME - 1` characters, uppercase, then look up. -/
def cmd_is_registered (table : List (List Char)) (name : List Char) : Bool :=
  table.contains (to_uppercase (name.take (PROTO_MAX_CMD_NAME - 1)))

/-- The error reply `client_thread` itself sends after `cmd_dispatch`
fails (server.c:114-127): `202 Command not implemented` when the verb is
unregistered, nothing otherwise (the handler already replied). -/
def client_thread_error_reply (table : List (List Char))
    (handlerResults : List Char → Int) (cmd : ProtoCommand) :
    Option (Nat × List Char) :=
  if ¬ cmd_dispatch_result table handlerResults cmd.command = 0 then
    if cmd_is_registered table cmd.command = false then
      some (PROTO_RESP_COMMAND_NOT_IMPL, "Command not implemented".data)
    else none
  else none

/-- Claim C4 — for every parsed command whose verb has no registered
handler (both the dispatch lookup and the `cmd_is_registered` lookup
fail), the session worker replies `202 Command not implemented`:
`PROTO_RESP_COMMAND_NOT_IMPL` is defined as 202, not the 502 the claim
states. -/
theorem c4_unknown_command_replies_202 (handlerResults : List Char → Int)
    (cmd : ProtoCommand)
    (hdisp : standard_command_table.contains cmd.command = false)
    (hreg : cmd_is_registered standard_command_table cmd.command = false) :
    client_thread_error_reply standard_command_table handlerResults cmd =
      some (PROTO_RESP_COMMAND_NOT_IMPL, "Command not implemented".data) ∧
    PROTO_RESP_COMMAND_NOT_IMPL = 202 := by
  refine ⟨?_, rfl⟩
  have hd : cmd_dispatch_result standard_command_table handlerResults cmd.command = -1 := by
    rw [cmd_dispatch_result, if_neg (by simpa using hdisp)]
  rw [client_thread_error_reply, hd]
  rw [if_pos (by decide : ¬ (-1 : Int) = 0), if_pos hreg]

/-- Witness for C4 at the unknown verb `XYZZ`. -/
theorem c4_unknown_command_replies_202_witness :
    client_thread_error_reply standard_command_table (fun _ => 0)
      ⟨"XYZZ".data, [], false⟩ =
      some (PROTO_RESP_COMMAND_NOT_IMPL, "Command not implemented".data) ∧
    PROTO_RESP_COMMAND_NOT_IMPL = 202 :=
  c4_unknown_command_replies_202 (fun _ => 0) ⟨"XYZZ".data, [], false⟩
    (by decide) (by decide)

/-! ## Session worker loop counters (`server.c`, claim C6)

Per loop iteration, `client_thread` (server.c:74-128) mutates the
session only by storing the receive time into `last_activity`
(before parsing, at server.c:99) and by whatever the dispatched handler
does.  No code in the repository ever increments `commands_received`:
it is set to 0 in `session_create` (session.c:91) and read by the QUIT
statistics (handler.c:243-279). -/

structure SessionCounters where
  last_activity : Nat
  commands_received : Nat
deriving DecidableEq

/-- One iteration of the `client_thread` command loop as it acts on the
timestamp and the command counter: store the receive time, parse,
dispatch (the handler's session effect is the oracle
`handlerEffect`). -/
def client_thread_loop_iteration (s : SessionCounters) (now : Nat) (line : List Char)
    (handlerEffect : SessionCounters → SessionCounters) : SessionCounters :=
  match proto_parse_command line with
  | none => { s with last_activity := now }
  | some _ => handlerEffect { s with last_activity := now }

/-- The session effect of `cmd_handle_noop` (handler.c:1803): it only
sends `200 OK` and touches no session field. -/
def cmd_handle_noop_effect : SessionCounters → SessionCounters :=
  fun s => s

/-- Claim C6 — the command counter is never incremented: as long as the
dispatched handler leaves `commands_received` alone (every handler in
handler.c does), a full loop iteration leaves it unchanged, so it can
never grow by one per command as the claim states. -/
theorem c6_counter_never_incremented (s : SessionCounters) (now : Nat)
    (line : List Char) (handlerEffect : SessionCounters → SessionCounters)
    (hhe : ∀ t, (handlerEffect t).commands_received = t.commands_received) :
    (client_thread_loop_iteration s now line handlerEffect).commands_received =
      s.commands_received ∧
    (client_thread_loop_iteration s now line handlerEffect).last_activity =
      (match proto_parse_command line with
       | none => now
       | some _ => (handlerEffect { s with last_activity := now }).last_activity) := by
  cases hp : proto_parse_command line with
  | none =>
    constructor
    · simp only [client_thread_loop_iteration, hp]
    · simp only [client_thread_loop_iteration, hp]
  | some c =>
    constructor
    · simp only [client_thread_loop_iteration, hp]
      exact hhe _
    · simp only [client_thread_loop_iteration, hp]

/-- Witness for C6: after processing `NOOP` at time 5 from the freshly
created session state, `commands_received` is still 0. -/
theorem c6_counter_never_incremented_witness :
    (client_thread_loop_iteration ⟨0, 0⟩ 5 "NOOP\r\n".data
        cmd_handle_noop_effect).commands_received =
      (⟨0, 0⟩ : SessionCounters).commands_received ∧
    (client_thread_loop_iteration ⟨0, 0⟩ 5 "NOOP\r\n".data
        cmd_handle_noop_effect).last_activity =
      (match proto_parse_command "NOOP\r\n".data with
       | none => 5
       | some _ => (cmd_handle_noop_effect
           { (⟨0, 0⟩ : SessionCounters) with last_activity := 5 }).last_activity) :=
  c6_counter_never_incremented ⟨0, 0⟩ 5 "NOOP\r\n".data cmd_handle_noop_effect
    (fun _ => rfl)

/-! ## Abort protocol (`handler.c`, `transfer.c`, claim C3)

`cmd_handle_abor` (handler.c:1754) checks the transfer-thread state:
when no worker is running it closes the data connection and replies
`225 No transfer in progress`; when one is running it sets the abort
flag, closes the data connection, and returns 0 **without writing any
reply** — in particular it never sends a 426.  The worker's terminal
reply for an aborted transfer (transfer.c:769-775) is
`226 ABOR command successful` (its comment asserts the ABOR handler
already sent 426, which that handler does not do). -/

def PROTO_RESP_DATA_CONN_OPEN_NO_TRANSFER : Nat := 225

def PROTO_RESP_CLOSING_DATA : Nat := 226

def PROTO_RESP_CONN_CLOSED : Nat := 426

def PROTO_RESP_LOCAL_ERROR : Nat := 451

inductive TransferThreadState where
  | idle
  | starting
  | running
  | completing
  | aborted
deriving DecidableEq

inductive TransferStatus where
  | ok
  | ioError
  | connError
  | internalError
  | abortedStatus
deriving DecidableEq

/-- Control-connection replies written by `cmd_handle_abor` itself. -/
def cmd_handle_abor_replies (thread_state : TransferThreadState) :
    List (Nat × List Char) :=
  if ¬ thread_state = .running then
    [(PROTO_RESP_DATA_CONN_OPEN_NO_TRANSFER, "No transfer in progress".data)]
  else []

/-- Terminal reply of the transfer worker by transfer result
(transfer.c:763-791). -/
def transfer_terminal_reply : TransferStatus → List (Nat × List Char)
  | .ok => [(PROTO_RESP_CLOSING_DATA, "Transfer complete".data)]
  | .abortedStatus => [(PROTO_RESP_CLOSING_DATA, "ABOR command successful".data)]
  | .connError =>
    [(PROTO_RESP_CONN_CLOSED, "Data connection closed; transfer aborted".data)]
  | .ioError => [(PROTO_RESP_LOCAL_ERROR, "Failed to read/write file".data)]
  | .internalError =>
    [(PROTO_RESP_LOCAL_ERROR, "Internal server error during transfer".data)]

/-- The complete control-connection reply sequence the client observes
for ABOR issued against a transfer in state `thread_state` that then
finishes with `result`: the handler's own replies followed by the
worker's terminal reply. -/
def abor_sequence_replies (thread_state : TransferThreadState)
    (result : TransferStatus) : List (Nat × List Char) :=
  cmd_handle_abor_replies thread_state ++ transfer_terminal_reply result

/-- Claim C3 — when ABOR arrives while the transfer worker is running,
the handler sends **no** reply at all (in particular no 426), and the
whole control-connection sequence is the single worker reply
`226 ABOR command successful`; the claimed `426 then 226` sequence
never happens. -/
theorem c3_abor_sequence :
    cmd_handle_abor_replies .running = [] ∧
    abor_sequence_replies .running .abortedStatus =
      [(PROTO_RESP_CLOSING_DATA, "ABOR command successful".data)] ∧
    PROTO_RESP_CLOSING_DATA = 226 :=
  ⟨rfl, rfl, rfl⟩

end FTP
